import Mathlib

/-!
Verification of the market-intelligence and adaptive-signal pipeline of the
Dtooltrades repository: a shallow embedding of the pattern engine
(`smart-pattern-engine`), the adaptive strategy manager, the trading manager,
the power analytics engine, the auto-bot stake progression
(`signal-strategies`), and the smart intelligence engine, together with
theorems settling the specification claims.

Numbers that the source manipulates as IEEE doubles are embedded as exact
rationals (or reals where the source applies `Math.sqrt`/`Math.log2`);
`Math.round x` is embedded as `⌊x + 1/2⌋`, which is its value on all
non-negative arguments and on negative arguments above -1/2.
-/

namespace DTool

/-- JS `Math.round` on an exact rational: floor of `q + 1/2`. -/
def jround (q : ℚ) : ℤ := ⌊q + 1/2⌋

/-- JS `list.slice(-n)`: the last `n` elements (the whole list when shorter). -/
def lastN (n : ℕ) (l : List ℕ) : List ℕ := l.drop (l.length - n)

/-! ## Pattern engine (`SmartPatternEngine`, src/unnamed/part_005)

`PatternMatch.metadata` is an untyped JS object whose shape is fixed by the
detector that builds it; the embedding fuses the `type` tag and the metadata
into one inductive `PatternKind`, and drops the two display-string fields
(`description`, `suggestion`), which no analyzed component reads. -/

inductive Zone
  | low
  | high
deriving DecidableEq

inductive Side
  | evenSide
  | oddSide
deriving DecidableEq

inductive PatternType
  | Clustering
  | ClusterRejection
  | AlternatingCycle
  | EvenOddImbalance
  | ExtremeCompression
  | MicroRepetition
deriving DecidableEq

/-- The `type` tag together with the detector-specific `metadata` fields:
`clustering` carries `{digit, count}`, `clusterRejection` carries
`{rejectedDigit}`, `alternatingCycle` carries `{cycle: [a, b]}`,
`evenOddImbalance` carries `{side, ratio}`, `extremeCompression` carries
`{zone, count}`, and `microRepetition` carries the three-element `series`. -/
inductive PatternKind
  | clustering (digit count : ℕ)
  | clusterRejection (rejectedDigit : ℕ)
  | alternatingCycle (a b : ℕ)
  | evenOddImbalance (side : Side) (ratio : ℚ)
  | extremeCompression (zone : Zone) (count : ℕ)
  | microRepetition (s1 s2 s3 : ℕ)
deriving DecidableEq

/-- The `type` field of a pattern match, recovered from the fused kind. -/
def ptypeOf : PatternKind → PatternType
  | .clustering _ _ => .Clustering
  | .clusterRejection _ => .ClusterRejection
  | .alternatingCycle _ _ => .AlternatingCycle
  | .evenOddImbalance _ _ => .EvenOddImbalance
  | .extremeCompression _ _ => .ExtremeCompression
  | .microRepetition _ _ _ => .MicroRepetition

structure PatternMatch where
  kind : PatternKind
  strength : ℚ
  confidence : ℚ
deriving DecidableEq

/-- `detectClustering`: count the trailing run of the last digit, scanning at
most the last 10 positions; fire when the run has length at least 2. -/
def detectClustering (w : List ℕ) : Option PatternMatch :=
  let lastDigit := w.getLastD 0
  let clusterCount := ((w.reverse.take 10).takeWhile (fun x => x == lastDigit)).length
  if 2 ≤ clusterCount then
    some ⟨.clustering lastDigit clusterCount,
      (clusterCount : ℚ) / 5 * 100, 60 + (clusterCount : ℚ) * 10⟩
  else none

/-- `detectClusterRejection`: the source counts the appearances of the LAST
digit (`lastDigit`) in the last 20 samples — not of the second-to-last digit —
and fires when that count is at least 4 and the last digit differs from the
second-to-last, reporting the second-to-last digit as `rejectedDigit`. -/
def detectClusterRejection (w : List ℕ) : Option PatternMatch :=
  let lastDigit := w.getLastD 0
  let recent := lastN 20 w
  let appearances := recent.count lastDigit
  if 4 ≤ appearances ∧ lastDigit ≠ w.dropLast.getLastD 0 then
    some ⟨.clusterRejection (w.dropLast.getLastD 0), (appearances : ℚ) / 10 * 100, 70⟩
  else none

/-- `detectAlternatingCycles`: exact `A B A B` in the last 4 digits, `A ≠ B`. -/
def detectAlternatingCycles (w : List ℕ) : Option PatternMatch :=
  match lastN 4 w with
  | [a, b, c, d] =>
    if a = c ∧ b = d ∧ a ≠ b then some ⟨.alternatingCycle a b, 85, 80⟩ else none
  | _ => none

/-- `detectEvenOddImbalance`: relative deviation of the even count from half of
the last 30 samples; fires at deviation at least 0.4. -/
def detectEvenOddImbalance (w : List ℕ) : Option PatternMatch :=
  let recent := lastN 30 w
  let n : ℚ := recent.length
  let evenCount : ℚ := recent.countP (fun d => d % 2 == 0)
  let imbalance := |evenCount - n / 2| / (n / 2)
  if 2/5 ≤ imbalance then
    some ⟨.evenOddImbalance (if n / 2 < evenCount then .evenSide else .oddSide) (evenCount / n),
      imbalance * 100, 75⟩
  else none

/-- `detectExtremeCompression`: at least 3 of the last 10 digits in {0,1}
(low zone first), otherwise at least 3 in {8,9} (high zone). -/
def detectExtremeCompression (w : List ℕ) : Option PatternMatch :=
  let recent := lastN 10 w
  let lowCount := recent.countP (fun d => d ≤ 1)
  let highCount := recent.countP (fun d => 8 ≤ d)
  if 3 ≤ lowCount then
    some ⟨.extremeCompression .low lowCount, (lowCount : ℚ) / 5 * 100, 80⟩
  else if 3 ≤ highCount then
    some ⟨.extremeCompression .high highCount, (highCount : ℚ) / 5 * 100, 80⟩
  else none

/-- `detectMicroRepetition`: exact `A B C A B C` in the last 6 digits. -/
def detectMicroRepetition (w : List ℕ) : Option PatternMatch :=
  match lastN 6 w with
  | [a, b, c, d, e, f] =>
    if a = d ∧ b = e ∧ c = f then some ⟨.microRepetition a b c, 95, 90⟩ else none
  | _ => none

/-- `analyze`: empty for windows shorter than 10; otherwise run the six
detectors in source order and sort the matches by descending confidence
(the source sorts with the comparator `b.confidence - a.confidence`). -/
def analyze (w : List ℕ) : List PatternMatch :=
  if w.length < 10 then []
  else
    List.insertionSort (fun p q => q.confidence ≤ p.confidence)
      (([detectClustering w, detectClusterRejection w, detectAlternatingCycles w,
        detectEvenOddImbalance w, detectExtremeCompression w,
        detectMicroRepetition w]).filterMap id)

/-- C1: the claim says ClusterRejection fires exactly when the SECOND-TO-LAST
digit appeared at least 4 times in the last 20 samples and the most recent
digit differs from it, and that on `[3,3,3,3,1,1,1,1,5]` `analyze` returns a
ClusterRejection match with `rejectedDigit = 1`. The code instead counts the
appearances of the most recent digit, and `analyze` returns nothing for the
9-element window; even on the 10-element window `[3,3,3,3,3,1,1,1,1,5]`,
where the second-to-last digit 1 appears exactly 4 times in the last 20 and
the last digit 5 differs from it, the detector still does not fire (5 appears
only once), contradicting the code's own description string, which reports
the second-to-last digit as the frequent one. -/
theorem clusterRejection_counts_last_digit_bug :
    analyze [3, 3, 3, 3, 1, 1, 1, 1, 5] = [] ∧
    detectClusterRejection [3, 3, 3, 3, 3, 1, 1, 1, 1, 5] = none ∧
    (lastN 20 [3, 3, 3, 3, 3, 1, 1, 1, 1, 5]).count 1 = 4 ∧
    [3, 3, 3, 3, 3, 1, 1, 1, 1, 5].getLastD 0 ≠
      [3, 3, 3, 3, 3, 1, 1, 1, 1, 5].dropLast.getLastD 0 := by
  refine ⟨?_, ?_, by decide, by decide⟩
  · rfl
  · decide

/-! ## Adaptive strategy manager (`src/lib/trading/adaptive-strategy-manager.ts`,
second copy in the file: the four-strategy version with `Matches`).
`barrier` is a string-encoded digit in the source ("2", "7", "0",
`digit.toString()`); it is embedded as the digit itself. -/

inductive TradeStrategy
  | OverUnder
  | EvenOdd
  | Matches
  | Differs
deriving DecidableEq

inductive ContractType
  | DIGITOVER
  | DIGITUNDER
  | DIGITODD
  | DIGITEVEN
  | DIGITMATCH
  | DIGITDIFF
deriving DecidableEq

inductive EntryStatus
  | Blocked
  | Waiting
  | Confirmed
deriving DecidableEq

structure StrategySignal where
  strategy : TradeStrategy
  ctype : ContractType
  barrier : ℕ
  confidence : ℚ
  entryStatus : EntryStatus
deriving DecidableEq

/-- The fixed pattern-to-signal mapping table (`mapPatternToSignal`). -/
def mapPatternToSignal (p : PatternMatch) : Option StrategySignal :=
  match p.kind with
  | .extremeCompression zone _ =>
    some ⟨.OverUnder,
      (if zone = .low then .DIGITOVER else .DIGITUNDER),
      (if zone = .low then 2 else 7),
      p.confidence,
      if 75 ≤ p.confidence then .Confirmed else .Waiting⟩
  | .evenOddImbalance side _ =>
    some ⟨.EvenOdd,
      (if side = .evenSide then .DIGITODD else .DIGITEVEN),
      0, p.confidence,
      if 70 ≤ p.confidence then .Confirmed else .Waiting⟩
  | .clustering digit _ =>
    some ⟨.Matches, .DIGITMATCH, digit, p.confidence,
      if 75 ≤ p.confidence then .Confirmed else .Waiting⟩
  | .clusterRejection rejectedDigit =>
    some ⟨.Differs, .DIGITDIFF, rejectedDigit, p.confidence,
      if 65 ≤ p.confidence then .Confirmed else .Waiting⟩
  | .microRepetition _ _ s3 =>
    some ⟨.Matches, .DIGITMATCH, s3, p.confidence, .Confirmed⟩
  | .alternatingCycle _ _ => none

/-- Signals sorted by descending confidence (the source's
`sort((a, b) => b.confidence - a.confidence)`). -/
def sortByConfDesc (l : List StrategySignal) : List StrategySignal :=
  List.insertionSort (fun a b => b.confidence ≤ a.confidence) l

/-- Confidence of the head of a signal list (the source reads `[0].confidence`
of a list its guard has shown nonempty). -/
def headConf : List StrategySignal → ℚ
  | [] => 0
  | s :: _ => s.confidence

/-- `resolveConflicts`: when both a Matches and a Differs signal are present,
compare the best (head of the descending sort) confidence of each family and
drop every signal of the losing family; a tie keeps Matches. -/
def resolveConflicts (signals : List StrategySignal) : List StrategySignal :=
  if signals.any (fun s => s.strategy == .Matches) &&
      signals.any (fun s => s.strategy == .Differs) then
    if headConf (sortByConfDesc (signals.filter (fun s => s.strategy == .Differs))) ≤
        headConf (sortByConfDesc (signals.filter (fun s => s.strategy == .Matches))) then
      signals.filter (fun s => s.strategy != .Differs)
    else signals.filter (fun s => s.strategy != .Matches)
  else signals

/-- `getSignals`: map every pattern through the table, then resolve the
Matches/Differs mutual exclusion. -/
def getSignals (ps : List PatternMatch) : List StrategySignal :=
  resolveConflicts (ps.filterMap mapPatternToSignal)

/-- The per-strategy confirmation thresholds named by the specification. -/
def strategyThreshold : TradeStrategy → ℚ
  | .OverUnder => 75
  | .EvenOdd => 70
  | .Matches => 75
  | .Differs => 65

instance : IsTotal StrategySignal (fun a b => b.confidence ≤ a.confidence) :=
  ⟨fun a b => le_total b.confidence a.confidence⟩

instance : IsTrans StrategySignal (fun a b => b.confidence ≤ a.confidence) :=
  ⟨fun _ _ _ h1 h2 => le_trans h2 h1⟩

/-- The head of the descending sort realizes the maximum confidence. -/
lemma headConf_sortByConfDesc (l : List StrategySignal) (h : l ≠ []) :
    ∃ s ∈ l, s.confidence = headConf (sortByConfDesc l) ∧
      ∀ x ∈ l, x.confidence ≤ s.confidence := by
  have hperm := List.perm_insertionSort (fun a b => b.confidence ≤ a.confidence) l
  have hsorted := List.sorted_insertionSort (fun a b => b.confidence ≤ a.confidence) l
  rcases hs : List.insertionSort (fun a b => b.confidence ≤ a.confidence) l with _ | ⟨s, rest⟩
  · rw [hs] at hperm
    exact absurd hperm.nil_eq.symm h
  · rw [hs] at hperm hsorted
    refine ⟨s, hperm.mem_iff.mp (List.mem_cons_self s rest), ?_, ?_⟩
    · simp [sortByConfDesc, hs, headConf]
    · intro x hx
      have hx2 : x ∈ s :: rest := hperm.mem_iff.mpr hx
      rcases List.mem_cons.mp hx2 with rfl | hx3
      · exact le_refl _
      · exact List.rel_of_sorted_cons hsorted x hx3

/-- Membership in the conflict-resolved list implies membership in the input. -/
lemma mem_of_mem_resolveConflicts {s : StrategySignal} {l : List StrategySignal}
    (h : s ∈ resolveConflicts l) : s ∈ l := by
  unfold resolveConflicts at h
  split at h
  · split at h <;> exact List.mem_of_mem_filter h
  · exact h

/-- C2 (amended): provided every MicroRepetition input pattern has confidence
at least 75 (the engine always emits MicroRepetition with confidence 90),
every signal returned by `getSignals` with `entryStatus = Confirmed` has
confidence at least its strategy's threshold (75 for OverUnder, 70 for
EvenOdd, 75 for Matches, 65 for Differs); and in particular an
ExtremeCompression-derived OverUnder signal with confidence 80 is Confirmed
while one with confidence 74 is Waiting. -/
theorem confirmed_signals_meet_threshold (ps : List PatternMatch)
    (hmicro : ∀ p ∈ ps, ptypeOf p.kind = .MicroRepetition → 75 ≤ p.confidence) :
    (∀ s ∈ getSignals ps, s.entryStatus = .Confirmed →
      strategyThreshold s.strategy ≤ s.confidence) ∧
    getSignals [⟨.extremeCompression .low 3, 60, 80⟩] =
      [⟨.OverUnder, .DIGITOVER, 2, 80, .Confirmed⟩] ∧
    getSignals [⟨.extremeCompression .low 3, 60, 74⟩] =
      [⟨.OverUnder, .DIGITOVER, 2, 74, .Waiting⟩] := by
  refine ⟨?_, by decide, by decide⟩
  intro s hs hconf
  have hraw : s ∈ ps.filterMap mapPatternToSignal := mem_of_mem_resolveConflicts hs
  rcases List.mem_filterMap.mp hraw with ⟨p, hp, hmap⟩
  rcases p with ⟨kind, strength, confidence⟩
  cases kind with
  | clustering digit count =>
    simp only [mapPatternToSignal, Option.some.injEq] at hmap
    subst hmap
    by_cases h75 : 75 ≤ confidence
    · simpa [strategyThreshold] using h75
    · simp [h75] at hconf
  | clusterRejection rd =>
    simp only [mapPatternToSignal, Option.some.injEq] at hmap
    subst hmap
    by_cases h65 : 65 ≤ confidence
    · simpa [strategyThreshold] using h65
    · simp [h65] at hconf
  | alternatingCycle a b =>
    simp [mapPatternToSignal] at hmap
  | evenOddImbalance side ratio =>
    simp only [mapPatternToSignal, Option.some.injEq] at hmap
    subst hmap
    by_cases h70 : 70 ≤ confidence
    · simpa [strategyThreshold] using h70
    · simp [h70] at hconf
  | extremeCompression zone count =>
    simp only [mapPatternToSignal, Option.some.injEq] at hmap
    subst hmap
    by_cases h75 : 75 ≤ confidence
    · simpa [strategyThreshold] using h75
    · simp [h75] at hconf
  | microRepetition s1 s2 s3 =>
    simp only [mapPatternToSignal, Option.some.injEq] at hmap
    subst hmap
    simpa [strategyThreshold] using hmicro _ hp rfl

/-- Witness for C2 at a concrete pattern list. -/
theorem confirmed_signals_meet_threshold_witness :
    (∀ p ∈ [(⟨.microRepetition 1 2 3, 95, 90⟩ : PatternMatch)],
      ptypeOf p.kind = .MicroRepetition → (75 : ℚ) ≤ p.confidence) ∧
    (∀ s ∈ getSignals [(⟨.microRepetition 1 2 3, 95, 90⟩ : PatternMatch)],
      s.entryStatus = .Confirmed → strategyThreshold s.strategy ≤ s.confidence) :=
  ⟨by decide, (confirmed_signals_meet_threshold _ (by decide)).1⟩

/-- C2 counterexample to the claim as stated: over arbitrary input pattern
lists, a MicroRepetition pattern with confidence 10 yields a Matches signal
that is Confirmed although its confidence is below the Matches threshold. -/
theorem confirmed_signal_below_threshold :
    ∃ s ∈ getSignals [(⟨.microRepetition 1 2 3, 95, 10⟩ : PatternMatch)],
      s.entryStatus = .Confirmed ∧ s.confidence < strategyThreshold s.strategy := by
  decide

/-- C4: when the signals derived from one call contain both a Matches-family
and a Differs-family signal, the returned list keeps exactly the signals of
the family whose best signal has the higher confidence and drops every signal
of the losing family, a confidence tie keeping Matches: there are a best
Matches signal `bm` and a best Differs signal `bd` (maximal confidence in
their families) such that the result is the Differs-free sublist when
`bd.confidence ≤ bm.confidence` and the Matches-free sublist otherwise. -/
theorem getSignals_conflict_rule (ps : List PatternMatch)
    (hm : ∃ s ∈ ps.filterMap mapPatternToSignal, s.strategy = .Matches)
    (hd : ∃ s ∈ ps.filterMap mapPatternToSignal, s.strategy = .Differs) :
    ∃ bm ∈ ps.filterMap mapPatternToSignal, ∃ bd ∈ ps.filterMap mapPatternToSignal,
      bm.strategy = .Matches ∧ bd.strategy = .Differs ∧
      (∀ x ∈ ps.filterMap mapPatternToSignal,
        x.strategy = .Matches → x.confidence ≤ bm.confidence) ∧
      (∀ x ∈ ps.filterMap mapPatternToSignal,
        x.strategy = .Differs → x.confidence ≤ bd.confidence) ∧
      getSignals ps =
        (if bd.confidence ≤ bm.confidence then
          (ps.filterMap mapPatternToSignal).filter (fun s => s.strategy != .Differs)
        else
          (ps.filterMap mapPatternToSignal).filter (fun s => s.strategy != .Matches)) := by
  obtain ⟨sm, hsm, hsmM⟩ := hm
  obtain ⟨sd, hsd, hsdD⟩ := hd
  set raw := ps.filterMap mapPatternToSignal with hraw
  have hmnil : raw.filter (fun s => s.strategy == .Matches) ≠ [] := by
    intro hnil
    have : sm ∈ raw.filter (fun s => s.strategy == .Matches) :=
      List.mem_filter.mpr ⟨hsm, by simp [hsmM]⟩
    rw [hnil] at this
    exact absurd this (List.not_mem_nil sm)
  have hdnil : raw.filter (fun s => s.strategy == .Differs) ≠ [] := by
    intro hnil
    have : sd ∈ raw.filter (fun s => s.strategy == .Differs) :=
      List.mem_filter.mpr ⟨hsd, by simp [hsdD]⟩
    rw [hnil] at this
    exact absurd this (List.not_mem_nil sd)
  obtain ⟨bm, hbmMem, hbmConf, hbmMax⟩ :=
    headConf_sortByConfDesc (raw.filter (fun s => s.strategy == .Matches)) hmnil
  obtain ⟨bd, hbdMem, hbdConf, hbdMax⟩ :=
    headConf_sortByConfDesc (raw.filter (fun s => s.strategy == .Differs)) hdnil
  have hbmStrat : bm.strategy = .Matches := by
    have := (List.mem_filter.mp hbmMem).2
    simpa using this
  have hbdStrat : bd.strategy = .Differs := by
    have := (List.mem_filter.mp hbdMem).2
    simpa using this
  refine ⟨bm, List.mem_of_mem_filter hbmMem, bd, List.mem_of_mem_filter hbdMem,
    hbmStrat, hbdStrat, ?_, ?_, ?_⟩
  · intro x hx hxM
    exact hbmMax x (List.mem_filter.mpr ⟨hx, by simp [hxM]⟩)
  · intro x hx hxD
    exact hbdMax x (List.mem_filter.mpr ⟨hx, by simp [hxD]⟩)
  · have hanyM : raw.any (fun s => s.strategy == .Matches) = true :=
      List.any_eq_true.mpr ⟨sm, hsm, by simp [hsmM]⟩
    have hanyD : raw.any (fun s => s.strategy == .Differs) = true :=
      List.any_eq_true.mpr ⟨sd, hsd, by simp [hsdD]⟩
    show resolveConflicts raw = _
    unfold resolveConflicts
    rw [hanyM, hanyD, ← hbmConf, ← hbdConf]
    simp only [Bool.and_self, if_true]

/-- Witness for C4 at a concrete pattern list producing one signal of each
family. -/
theorem getSignals_conflict_rule_witness :
    (∃ s ∈ List.filterMap mapPatternToSignal
        [(⟨.clustering 4 2, 40, 80⟩ : PatternMatch), ⟨.clusterRejection 3, 40, 70⟩],
      s.strategy = .Matches) ∧
    (∃ s ∈ List.filterMap mapPatternToSignal
        [(⟨.clustering 4 2, 40, 80⟩ : PatternMatch), ⟨.clusterRejection 3, 40, 70⟩],
      s.strategy = .Differs) ∧
    (∃ bm ∈ List.filterMap mapPatternToSignal
        [(⟨.clustering 4 2, 40, 80⟩ : PatternMatch), ⟨.clusterRejection 3, 40, 70⟩],
      ∃ bd ∈ List.filterMap mapPatternToSignal
        [(⟨.clustering 4 2, 40, 80⟩ : PatternMatch), ⟨.clusterRejection 3, 40, 70⟩],
      bm.strategy = .Matches ∧ bd.strategy = .Differs ∧
      (∀ x ∈ List.filterMap mapPatternToSignal
          [(⟨.clustering 4 2, 40, 80⟩ : PatternMatch), ⟨.clusterRejection 3, 40, 70⟩],
        x.strategy = .Matches → x.confidence ≤ bm.confidence) ∧
      (∀ x ∈ List.filterMap mapPatternToSignal
          [(⟨.clustering 4 2, 40, 80⟩ : PatternMatch), ⟨.clusterRejection 3, 40, 70⟩],
        x.strategy = .Differs → x.confidence ≤ bd.confidence) ∧
      getSignals [(⟨.clustering 4 2, 40, 80⟩ : PatternMatch), ⟨.clusterRejection 3, 40, 70⟩] =
        (if bd.confidence ≤ bm.confidence then
          (List.filterMap mapPatternToSignal
            [(⟨.clustering 4 2, 40, 80⟩ : PatternMatch),
              ⟨.clusterRejection 3, 40, 70⟩]).filter (fun s => s.strategy != .Differs)
        else
          (List.filterMap mapPatternToSignal
            [(⟨.clustering 4 2, 40, 80⟩ : PatternMatch),
              ⟨.clusterRejection 3, 40, 70⟩]).filter (fun s => s.strategy != .Matches))) :=
  ⟨by decide, by decide, getSignals_conflict_rule _ (by decide) (by decide)⟩

/-! ## Trading manager (`src/lib/trading/trading-manager.ts`)

`tradeOnce` consults the session profit band and the signal's entry status,
then delegates to the external executor; the executor's reply (`null` when
the trade yields no result) is passed in as an oracle argument. The returned
Bool records whether the order was placed via the executor. -/

structure SessionStats where
  trades : ℕ
  wins : ℕ
  losses : ℕ
  profit : ℚ
  highestWin : ℚ
  worstLoss : ℚ
deriving DecidableEq

structure TradeResult where
  isWin : Bool
  profit : ℚ
  buyPrice : ℚ
deriving DecidableEq

structure TMConfig where
  maxLoss : ℚ
  targetProfit : ℚ
deriving DecidableEq

/-- `updateStats`: a win adds `result.profit`, a loss subtracts
`result.buyPrice`; extrema are updated by strict comparison. -/
def updateStats (s : SessionStats) (r : TradeResult) : SessionStats :=
  if r.isWin then
    ⟨s.trades + 1, s.wins + 1, s.losses, s.profit + r.profit,
      (if s.highestWin < r.profit then r.profit else s.highestWin), s.worstLoss⟩
  else
    ⟨s.trades + 1, s.wins, s.losses + 1, s.profit - r.buyPrice, s.highestWin,
      (if s.worstLoss < r.buyPrice then r.buyPrice else s.worstLoss)⟩

/-- `tradeOnce`: rejected (no order, stats untouched) when
`profit <= -maxLoss || profit >= targetProfit` or the signal is not
Confirmed; otherwise the order is placed and, when the executor returns a
result, the stats are updated. -/
def tradeOnce (cfg : TMConfig) (stats : SessionStats) (signal : StrategySignal)
    (execResult : Option TradeResult) : SessionStats × Bool :=
  if stats.profit ≤ -cfg.maxLoss ∨ cfg.targetProfit ≤ stats.profit then (stats, false)
  else if signal.entryStatus ≠ .Confirmed then (stats, false)
  else
    match execResult with
    | some r => (updateStats stats r, true)
    | none => (stats, true)

/-- C3 (amended): `tradeOnce` places no order and leaves the stats unchanged
exactly when the session profit is at or beyond one of the two limits
(`profit ≤ -maxLoss` or `profit ≥ targetProfit`, boundary included) or the
signal is not Confirmed; otherwise it places the order and, when the executor
yields a result, updates the stats through `updateStats`. -/
theorem tradeOnce_reject_iff (cfg : TMConfig) (stats : SessionStats)
    (signal : StrategySignal) (er : Option TradeResult) :
    ((tradeOnce cfg stats signal er).2 = false ∧ (tradeOnce cfg stats signal er).1 = stats ↔
      stats.profit ≤ -cfg.maxLoss ∨ cfg.targetProfit ≤ stats.profit ∨
        signal.entryStatus ≠ .Confirmed) ∧
    (∀ r, er = some r →
      ¬(stats.profit ≤ -cfg.maxLoss ∨ cfg.targetProfit ≤ stats.profit ∨
        signal.entryStatus ≠ .Confirmed) →
      tradeOnce cfg stats signal er = (updateStats stats r, true)) := by
  constructor
  · by_cases h1 : stats.profit ≤ -cfg.maxLoss ∨ cfg.targetProfit ≤ stats.profit
    · simp only [tradeOnce, if_pos h1]
      simp [h1.imp id Or.inl]
    · by_cases h2 : signal.entryStatus = .Confirmed
      · cases er <;> simp [tradeOnce, h1, h2]
      · simp [tradeOnce, h1, h2]
  · rintro r rfl hrej
    push_neg at hrej
    obtain ⟨hnl, hnt, hconf⟩ := hrej
    have h1 : ¬(stats.profit ≤ -cfg.maxLoss ∨ cfg.targetProfit ≤ stats.profit) := by
      push_neg
      exact ⟨hnl, hnt⟩
    simp [tradeOnce, h1, hconf]

/-- Witness for C3's amended theorem: a strictly in-band profit with a
Confirmed signal and a returned result updates the stats. -/
theorem tradeOnce_reject_iff_witness :
    tradeOnce ⟨10, 5⟩ ⟨0, 0, 0, 0, 0, 0⟩ ⟨.OverUnder, .DIGITOVER, 2, 80, .Confirmed⟩
        (some ⟨true, 2, 1⟩) =
      (updateStats ⟨0, 0, 0, 0, 0, 0⟩ ⟨true, 2, 1⟩, true) :=
  (tradeOnce_reject_iff ⟨10, 5⟩ ⟨0, 0, 0, 0, 0, 0⟩
    ⟨.OverUnder, .DIGITOVER, 2, 80, .Confirmed⟩ (some ⟨true, 2, 1⟩)).2
    ⟨true, 2, 1⟩ rfl (by decide)

/-- C3 counterexample to the claim as stated: with the default limits
(maxLoss 10, targetProfit 5) and session profit exactly 5 — inside the
closed interval `[-10, 5]` — and a Confirmed signal, the code still places
no order, because it rejects with `profit >= targetProfit`. -/
theorem tradeOnce_rejects_at_boundary :
    tradeOnce ⟨10, 5⟩ ⟨0, 0, 0, 5, 0, 0⟩ ⟨.OverUnder, .DIGITOVER, 2, 80, .Confirmed⟩
        (some ⟨true, 2, 1⟩) = (⟨0, 0, 0, 5, 0, 0⟩, false) ∧
    -(10 : ℚ) ≤ 5 ∧ (5 : ℚ) ≤ 5 ∧
    (⟨.OverUnder, .DIGITOVER, 2, 80, .Confirmed⟩ : StrategySignal).entryStatus =
      .Confirmed := by
  refine ⟨by decide, by norm_num, by norm_num, rfl⟩

/-! ## Smart intelligence engine state (`src/lib/trading/smart-intelligence-engine.ts`)

The per-symbol maps are embedded as association lists; `stopScanning` clears
the subscription map and the scanning flag and leaves `scanResults` and
`tickWindows` in place. -/

inductive MarketState
  | Random
  | Transitional
  | Structured
deriving DecidableEq

/-- `MarketScore` without its `timestamp` field (`Date.now()` is
environmental). `score`, `stability`, `patternStrength` and `noiseRatio` are
the `Math.round`ed integers the source stores. -/
structure MarketScore where
  symbol : String
  score : ℤ
  state : MarketState
  stability : ℤ
  patternStrength : ℤ
  noiseRatio : ℤ
  lastDigit : ℕ
deriving DecidableEq

structure SIEState where
  isScanning : Bool
  subscriptionIds : List (String × String)
  scanResults : List (String × MarketScore)
  tickWindows : List (String × List ℕ)
deriving DecidableEq

/-- `stopScanning`: unsubscribe every stream it holds an id for (so the
subscription map empties) and reset the scanning flag; no other field is
touched. -/
def stopScanning (s : SIEState) : SIEState :=
  ⟨false, [], s.scanResults, s.tickWindows⟩

/-- `getScores`: the stored scores sorted by descending `score`. -/
def getScores (s : SIEState) : List MarketScore :=
  List.insertionSort (fun a b => b.score ≤ a.score) (s.scanResults.map Prod.snd)

/-- C9 (amended): after `stopScanning` every tick subscription has been
released (the subscription map is empty) and the scanning flag is cleared,
but the per-symbol score map and the tick windows are retained, so
`getScores` still reports exactly the scores of the stopped session. -/
theorem stopScanning_releases_but_keeps_scores (s : SIEState) :
    (stopScanning s).subscriptionIds = [] ∧
    (stopScanning s).isScanning = false ∧
    (stopScanning s).scanResults = s.scanResults ∧
    (stopScanning s).tickWindows = s.tickWindows ∧
    getScores (stopScanning s) = getScores s :=
  ⟨rfl, rfl, rfl, rfl, rfl⟩

/-- C9 counterexample to the claim as stated: a session holding one score
still reports it through `getScores` after `stopScanning`, so the score map
is not discarded. -/
theorem getScores_after_stop_not_cleared :
    getScores (stopScanning ⟨true, [("R_10", "sub1")],
        [("R_10", ⟨"R_10", 50, .Transitional, 60, 40, 80, 7⟩)], [("R_10", [1, 2, 3])]⟩) =
      [⟨"R_10", 50, .Transitional, 60, 40, 80, 7⟩] := rfl

/-! ## Power analytics engine (`src/lib/high-speed/power-analytics-engine.ts`)

Four ring buffers of capacities 15/25/50/100; every `addDigit` updates all
four and recomputes the snapshot from the 25-buffer, with trends from the
15- and 50-buffers. The snapshot's `timestamp` (`Date.now()`) is omitted. -/

structure PAState where
  buffer15 : List ℕ
  buffer25 : List ℕ
  buffer50 : List ℕ
  buffer100 : List ℕ
deriving DecidableEq

def initPAState : PAState := ⟨[], [], [], []⟩

/-- Push and evict the oldest element when over capacity. -/
def updateBuffer (buffer : List ℕ) (digit : ℕ) (cap : ℕ) : List ℕ :=
  if cap < (buffer ++ [digit]).length then (buffer ++ [digit]).tail else buffer ++ [digit]

structure PowerSnapshot where
  lastDigit : ℕ
  evenPower : ℤ
  oddPower : ℤ
  underPower : ℤ
  overPower : ℤ
  digitFrequencies : List ℕ
  digitPowers : List ℤ
  strongestDigit : ℕ
  weakestDigit : ℕ
  isEvenIncreasing : Bool
  isOddIncreasing : Bool
  isUnderIncreasing : Bool
  isOverIncreasing : Bool
deriving DecidableEq

/-- The per-digit counts over a window, for digits 0 through 9. -/
def digitCountsOf (w : List ℕ) : List ℕ := (List.range 10).map (fun d => w.count d)

/-- A category's rate over a window: matching count divided by length. -/
def rateOf (p : ℕ → Bool) (l : List ℕ) : ℚ := (l.countP p : ℚ) / l.length

/-- `calculateTrend`: false when either buffer is empty, else whether the
short window's rate strictly exceeds the long window's rate. -/
def calculateTrend (shortW longW : List ℕ) (p : ℕ → Bool) : Bool :=
  if shortW.length = 0 ∨ longW.length = 0 then false
  else decide (rateOf p longW < rateOf p shortW)

/-- The strongest digit: linear scan from index 1, replacing index 0 only on
a strictly greater power. -/
def strongestOf (dp : List ℚ) : ℕ :=
  (List.range 9).foldl (fun best i => if dp.getD best 0 < dp.getD (i + 1) 0 then i + 1 else best) 0

/-- The weakest digit: linear scan, strictly smaller power wins. -/
def weakestOf (dp : List ℚ) : ℕ :=
  (List.range 9).foldl (fun worst i => if dp.getD (i + 1) 0 < dp.getD worst 0 then i + 1 else worst) 0

/-- `calculateSnapshot` over the 25-buffer, with rounded percentage fields. -/
def calculateSnapshot (s : PAState) (lastDigit : ℕ) : PowerSnapshot :=
  let window := s.buffer25
  let len : ℚ := window.length
  let evenPower : ℚ := (window.countP (fun d => d % 2 == 0) : ℚ) / len * 100
  let underPower : ℚ := (window.countP (fun d => decide (d ≤ 4)) : ℚ) / len * 100
  let digitPowers : List ℚ := (digitCountsOf window).map (fun c => (c : ℚ) / len * 100)
  let isEvenIncreasing := calculateTrend s.buffer15 s.buffer50 (fun d => d % 2 == 0)
  let isUnderIncreasing := calculateTrend s.buffer15 s.buffer50 (fun d => decide (d ≤ 4))
  ⟨lastDigit,
    jround evenPower, jround (100 - evenPower),
    jround underPower, jround (100 - underPower),
    digitCountsOf window, digitPowers.map jround,
    strongestOf digitPowers, weakestOf digitPowers,
    isEvenIncreasing, !isEvenIncreasing, isUnderIncreasing, !isUnderIncreasing⟩

/-- `addDigit`: update the four buffers, then snapshot. -/
def addDigit (s : PAState) (digit : ℕ) : PAState × PowerSnapshot :=
  let s2 : PAState := ⟨updateBuffer s.buffer15 digit 15, updateBuffer s.buffer25 digit 25,
    updateBuffer s.buffer50 digit 50, updateBuffer s.buffer100 digit 100⟩
  (s2, calculateSnapshot s2 digit)

/-- Feed a digit sequence into a fresh engine. -/
def feedDigits (ds : List ℕ) : PAState :=
  ds.foldl (fun s d => (addDigit s d).1) initPAState

/-- The snapshot returned by the last `addDigit` of the nonempty sequence
`ds ++ [d]`. -/
def runEngine (ds : List ℕ) (d : ℕ) : PowerSnapshot :=
  (addDigit (feedDigits ds) d).2

lemma updateBuffer_ne_nil (buffer : List ℕ) (digit cap : ℕ) (hc : 1 ≤ cap) :
    updateBuffer buffer digit cap ≠ [] := by
  unfold updateBuffer
  split
  · next h =>
    intro hnil
    have hlen : (buffer ++ [digit]).tail.length = 0 := by rw [hnil]; rfl
    rw [List.length_tail, List.length_append, List.length_singleton] at hlen
    rw [List.length_append, List.length_singleton] at h
    omega
  · simp

lemma mem_updateBuffer {x : ℕ} {buffer : List ℕ} {digit cap : ℕ}
    (h : x ∈ updateBuffer buffer digit cap) : x ∈ buffer ++ [digit] := by
  unfold updateBuffer at h
  split at h
  · exact List.mem_of_mem_tail h
  · exact h

/-- Rounding a complementary percentage pair: the rounded values sum to 100
or 101 (101 exactly at a half-integer split). -/
lemma jround_pair_bound (x : ℚ) : |jround x + jround (100 - x) - 100| ≤ 1 := by
  have h1 : (jround x : ℚ) ≤ x + 1/2 := Int.floor_le _
  have h2 : x + 1/2 - 1 < (jround x : ℚ) := Int.sub_one_lt_floor _
  have h3 : (jround (100 - x) : ℚ) ≤ 100 - x + 1/2 := Int.floor_le _
  have h4 : 100 - x + 1/2 - 1 < (jround (100 - x) : ℚ) := Int.sub_one_lt_floor _
  have h5 : (99 : ℚ) < jround x + jround (100 - x) := by linarith
  have h6 : (jround x + jround (100 - x) : ℚ) ≤ 101 := by linarith
  have h5' : (99 : ℤ) < jround x + jround (100 - x) := by exact_mod_cast h5
  have h6' : jround x + jround (100 - x) ≤ (101 : ℤ) := by exact_mod_cast h6
  rw [abs_le]
  omega

lemma sum_map_jround_le (qs : List ℚ) :
    qs.sum - qs.length / 2 ≤ ((qs.map jround).sum : ℚ) ∧
      ((qs.map jround).sum : ℚ) ≤ qs.sum + qs.length / 2 := by
  induction qs with
  | nil => simp
  | cons q qs ih =>
    have h1 : (jround q : ℚ) ≤ q + 1/2 := Int.floor_le _
    have h2 : q + 1/2 - 1 < (jround q : ℚ) := Int.sub_one_lt_floor _
    obtain ⟨ih1, ih2⟩ := ih
    push_cast at ih1 ih2 ⊢
    simp only [List.map_cons, List.sum_cons, List.length_cons]
    push_cast
    constructor <;> linarith

lemma sum_indicator_range (n a : ℕ) (h : a < n) :
    ((List.range n).map (fun d => if a = d then 1 else 0)).sum = 1 := by
  induction n with
  | zero => omega
  | succ n ih =>
    have hr : List.range (n + 1) = List.range n ++ [n] := List.range_succ n
    rw [hr, List.map_append, List.sum_append]
    by_cases ha : a = n
    · subst ha
      have hz : ((List.range a).map (fun d => if a = d then 1 else 0)).sum = 0 := by
        apply List.sum_eq_zero
        intro x hx
        rcases List.mem_map.mp hx with ⟨d, hd, hdx⟩
        have : d < a := List.mem_range.mp hd
        have : ¬ a = d := by omega
        simp [this] at hdx
        omega
      simp [hz]
    · have h2 : a < n := by omega
      rw [ih h2]
      simp [ha]

lemma sum_digitCountsOf (w : List ℕ) (hb : ∀ x ∈ w, x < 10) :
    (digitCountsOf w).sum = w.length := by
  induction w with
  | nil => rfl
  | cons a w ih =>
    have ha : a < 10 := hb a (List.mem_cons_self a w)
    have hw : ∀ x ∈ w, x < 10 := fun x hx => hb x (List.mem_cons_of_mem a hx)
    have hcc : ∀ d : ℕ, (a :: w).count d = w.count d + (if d = a then 1 else 0) := by
      intro d
      rw [List.count_cons]
      by_cases hda : a = d
      · subst hda
        simp
      · have : ¬ d = a := fun h => hda h.symm
        simp [hda, this]
    have hmain : (digitCountsOf (a :: w)).sum =
        (digitCountsOf w).sum +
          ((List.range 10).map (fun d => if d = a then 1 else 0)).sum := by
      unfold digitCountsOf
      have hfun : (List.range 10).map (fun d => (a :: w).count d) =
          (List.range 10).map (fun d => w.count d + (if d = a then 1 else 0)) :=
        List.map_congr_left (fun d _ => hcc d)
      rw [hfun]
      clear hfun hcc
      induction (List.range 10) with
      | nil => simp
      | cons y ys ihy =>
        simp only [List.map_cons, List.sum_cons] at *
        omega
    have hind : ((List.range 10).map (fun d => if d = a then 1 else 0)).sum = 1 := by
      have := sum_indicator_range 10 a ha
      have hsame : ((List.range 10).map (fun d => if a = d then 1 else 0)) =
          ((List.range 10).map (fun d => if d = a then 1 else 0)) := by
        apply List.map_congr_left
        intro d _
        by_cases hd : a = d
        · subst hd
          simp
        · have : ¬ d = a := fun h => hd h.symm
          simp [hd, this]
      rw [← hsame]
      exact this
    rw [hmain, hind, ih hw]
    simp

lemma sum_map_natCast_mul (l : List ℕ) (k : ℚ) :
    (l.map (fun c : ℕ => (c : ℚ) * k)).sum = (l.sum : ℚ) * k := by
  induction l with
  | nil => simp
  | cons a l ih =>
    simp only [List.map_cons, List.sum_cons, ih]
    push_cast
    ring

lemma foldl_buffer25_bound (ds : List ℕ) :
    ∀ (s : PAState), (∀ x ∈ s.buffer25, x < 10) → (∀ x ∈ ds, x < 10) →
      ∀ x ∈ (ds.foldl (fun s d => (addDigit s d).1) s).buffer25, x < 10 := by
  induction ds with
  | nil => intro s hs _; exact hs
  | cons a ds ih =>
    intro s hs hds x hx
    rw [List.foldl_cons] at hx
    refine ih ((addDigit s a).1) ?_ (fun y hy => hds y (List.mem_cons_of_mem a hy)) x hx
    intro y hy
    have hy2 : y ∈ s.buffer25 ++ [a] := mem_updateBuffer hy
    rcases List.mem_append.mp hy2 with h | h
    · exact hs y h
    · have : y = a := by simpa using h
      subst this
      exact hds y (List.mem_cons_self y ds)

lemma feedDigits_buffer25_bound (ds : List ℕ) (hds : ∀ x ∈ ds, x < 10) :
    ∀ x ∈ (feedDigits ds).buffer25, x < 10 :=
  foldl_buffer25_bound ds initPAState (by intro x hx; simp [initPAState] at hx) hds

lemma calculateSnapshot_sums (s : PAState) (d : ℕ) (hne : s.buffer25 ≠ [])
    (hb : ∀ x ∈ s.buffer25, x < 10) :
    |(calculateSnapshot s d).evenPower + (calculateSnapshot s d).oddPower - 100| ≤ 1 ∧
    |(calculateSnapshot s d).underPower + (calculateSnapshot s d).overPower - 100| ≤ 1 ∧
    |((calculateSnapshot s d).digitPowers).sum - 100| ≤ 5 := by
  refine ⟨jround_pair_bound _, jround_pair_bound _, ?_⟩
  have hlen : ((s.buffer25.length : ℚ)) ≠ 0 := by
    have : s.buffer25.length ≠ 0 := fun h => hne (List.length_eq_zero.mp h)
    exact_mod_cast this
  have hdp : (calculateSnapshot s d).digitPowers =
      ((digitCountsOf s.buffer25).map
        (fun c : ℕ => (c : ℚ) / (s.buffer25.length : ℚ) * 100)).map jround := rfl
  set qs : List ℚ := (digitCountsOf s.buffer25).map
    (fun c : ℕ => (c : ℚ) / (s.buffer25.length : ℚ) * 100) with hqs
  have hqlen : qs.length = 10 := by
    rw [hqs]
    simp [digitCountsOf]
  have hqsum : qs.sum = 100 := by
    rw [hqs]
    have hfun : (digitCountsOf s.buffer25).map
        (fun c : ℕ => (c : ℚ) / (s.buffer25.length : ℚ) * 100) =
        (digitCountsOf s.buffer25).map
          (fun c : ℕ => (c : ℚ) * (100 / (s.buffer25.length : ℚ))) := by
      apply List.map_congr_left
      intro c _
      ring
    rw [hfun, sum_map_natCast_mul, sum_digitCountsOf s.buffer25 hb]
    field_simp
  obtain ⟨hlo, hhi⟩ := sum_map_jround_le qs
  rw [hqsum, hqlen] at hlo hhi
  rw [hdp]
  have h10 : ((10 : ℕ) : ℚ) / 2 = 5 := by norm_num
  rw [h10] at hlo hhi
  have hlo' : (95 : ℚ) ≤ ((qs.map jround).sum : ℚ) := by linarith
  have hhi' : ((qs.map jround).sum : ℚ) ≤ 105 := by linarith
  have hlo2 : (95 : ℤ) ≤ (qs.map jround).sum := by exact_mod_cast hlo'
  have hhi2 : (qs.map jround).sum ≤ (105 : ℤ) := by exact_mod_cast hhi'
  rw [abs_le]
  omega

/-- C6: after any nonempty digit sequence (all digits 0-9) is fed through
`addDigit`, the returned snapshot's rounded `evenPower + oddPower` and
`underPower + overPower` are 100 up to rounding (within 1), and the ten
rounded `digitPowers` entries sum to 100 up to rounding (within 5). -/
theorem power_snapshot_sums (ds : List ℕ) (d : ℕ)
    (hds : ∀ x ∈ ds, x < 10) (hd : d < 10) :
    |(runEngine ds d).evenPower + (runEngine ds d).oddPower - 100| ≤ 1 ∧
    |(runEngine ds d).underPower + (runEngine ds d).overPower - 100| ≤ 1 ∧
    |((runEngine ds d).digitPowers).sum - 100| ≤ 5 := by
  have h2 : runEngine ds d = calculateSnapshot
      ⟨updateBuffer (feedDigits ds).buffer15 d 15, updateBuffer (feedDigits ds).buffer25 d 25,
        updateBuffer (feedDigits ds).buffer50 d 50,
        updateBuffer (feedDigits ds).buffer100 d 100⟩ d := rfl
  rw [h2]
  apply calculateSnapshot_sums
  · exact updateBuffer_ne_nil _ _ _ (by norm_num)
  · intro x hx
    rcases List.mem_append.mp (mem_updateBuffer hx) with h | h
    · exact feedDigits_buffer25_bound ds hds x h
    · have : x = d := by simpa using h
      subst this
      exact hd

/-- Witness for C6 at the concrete sequence `[1, 2, 3]` followed by `4`. -/
theorem power_snapshot_sums_witness :
    |(runEngine [1, 2, 3] 4).evenPower + (runEngine [1, 2, 3] 4).oddPower - 100| ≤ 1 ∧
    |(runEngine [1, 2, 3] 4).underPower + (runEngine [1, 2, 3] 4).overPower - 100| ≤ 1 ∧
    |((runEngine [1, 2, 3] 4).digitPowers).sum - 100| ≤ 5 :=
  power_snapshot_sums [1, 2, 3] 4 (by decide) (by decide)

lemma rateOf_compl (p q : ℕ → Bool) (l : List ℕ) (hl : l ≠ [])
    (hpq : ∀ x, q x = !(p x)) : rateOf q l = 1 - rateOf p l := by
  have hlen : ((l.length : ℚ)) ≠ 0 := by
    have : l.length ≠ 0 := fun h => hl (List.length_eq_zero.mp h)
    exact_mod_cast this
  have hple : l.countP p ≤ l.length := l.countP_le_length p
  have hc : l.countP q = l.length - l.countP p := by
    have hsplit := l.length_eq_countP_add_countP p
    have hq : l.countP q = l.countP (fun a => ¬ p a) := by
      apply List.countP_congr
      intro x _
      rw [hpq x]
      simp
    omega
  unfold rateOf
  rw [hc]
  rw [Nat.cast_sub hple]
  field_simp

/-- The engine state after feeding `ds ++ [d]`. -/
def runState (ds : List ℕ) (d : ℕ) : PAState := (addDigit (feedDigits ds) d).1

lemma calculateTrend_eq (shortW longW : List ℕ) (p : ℕ → Bool)
    (hs : shortW ≠ []) (hl : longW ≠ []) :
    calculateTrend shortW longW p = true ↔ rateOf p longW < rateOf p shortW := by
  have hcond : ¬(shortW.length = 0 ∨ longW.length = 0) := by
    rw [not_or]
    exact ⟨fun h => hs (List.length_eq_zero.mp h), fun h => hl (List.length_eq_zero.mp h)⟩
  simp only [calculateTrend, if_neg hcond, decide_eq_true_eq]

/-- C7 (amended): `isEvenIncreasing` and `isUnderIncreasing` are true exactly
when that category's rate over the 15-buffer strictly exceeds its rate over
the 50-buffer; `isOddIncreasing` and `isOverIncreasing` are the negations of
the other two flags, so they are true exactly when their own category's
15-buffer rate is greater than OR EQUAL to its 50-buffer rate. -/
theorem trend_flags_vs_rates (ds : List ℕ) (d : ℕ) :
    ((runEngine ds d).isEvenIncreasing = true ↔
      rateOf (fun x => x % 2 == 0) (runState ds d).buffer50 <
        rateOf (fun x => x % 2 == 0) (runState ds d).buffer15) ∧
    ((runEngine ds d).isUnderIncreasing = true ↔
      rateOf (fun x => decide (x ≤ 4)) (runState ds d).buffer50 <
        rateOf (fun x => decide (x ≤ 4)) (runState ds d).buffer15) ∧
    ((runEngine ds d).isOddIncreasing = true ↔
      rateOf (fun x => x % 2 == 1) (runState ds d).buffer50 ≤
        rateOf (fun x => x % 2 == 1) (runState ds d).buffer15) ∧
    ((runEngine ds d).isOverIncreasing = true ↔
      rateOf (fun x => decide (5 ≤ x)) (runState ds d).buffer50 ≤
        rateOf (fun x => decide (5 ≤ x)) (runState ds d).buffer15) := by
  have h15 : (runState ds d).buffer15 ≠ [] := updateBuffer_ne_nil _ _ _ (by norm_num)
  have h50 : (runState ds d).buffer50 ≠ [] := updateBuffer_ne_nil _ _ _ (by norm_num)
  have heven : (runEngine ds d).isEvenIncreasing =
      calculateTrend (runState ds d).buffer15 (runState ds d).buffer50
        (fun x => x % 2 == 0) := rfl
  have hunder : (runEngine ds d).isUnderIncreasing =
      calculateTrend (runState ds d).buffer15 (runState ds d).buffer50
        (fun x => decide (x ≤ 4)) := rfl
  have hodd : (runEngine ds d).isOddIncreasing =
      !(calculateTrend (runState ds d).buffer15 (runState ds d).buffer50
        (fun x => x % 2 == 0)) := rfl
  have hover : (runEngine ds d).isOverIncreasing =
      !(calculateTrend (runState ds d).buffer15 (runState ds d).buffer50
        (fun x => decide (x ≤ 4))) := rfl
  have hoddc : ∀ l : List ℕ, l ≠ [] →
      rateOf (fun x => x % 2 == 1) l = 1 - rateOf (fun x => x % 2 == 0) l := by
    intro l hlnil
    apply rateOf_compl
    · exact hlnil
    · intro x
      rcases Nat.mod_two_eq_zero_or_one x with h | h <;> simp [h]
  have hoverc : ∀ l : List ℕ, l ≠ [] →
      rateOf (fun x => decide (5 ≤ x)) l = 1 - rateOf (fun x => decide (x ≤ 4)) l := by
    intro l hlnil
    apply rateOf_compl
    · exact hlnil
    · intro x
      by_cases h : x ≤ 4
      · simp [h]
        omega
      · simp [h]
        omega
  refine ⟨?_, ?_, ?_, ?_⟩
  · rw [heven]
    exact calculateTrend_eq _ _ _ h15 h50
  · rw [hunder]
    exact calculateTrend_eq _ _ _ h15 h50
  · rw [hodd, Bool.not_eq_true', ← Bool.not_eq_true,
      hoddc _ h15, hoddc _ h50, calculateTrend_eq _ _ _ h15 h50]
    constructor
    · intro h
      have := not_lt.mp h
      linarith
    · intro h
      apply not_lt.mpr
      linarith
  · rw [hover, Bool.not_eq_true', ← Bool.not_eq_true,
      hoverc _ h15, hoverc _ h50, calculateTrend_eq _ _ _ h15 h50]
    constructor
    · intro h
      have := not_lt.mp h
      linarith
    · intro h
      apply not_lt.mpr
      linarith

/-- C7 counterexample to the claim as stated: after feeding the single digit
0, `isOddIncreasing` is true although the odd rate over the 15-buffer (0)
does not strictly exceed the odd rate over the 50-buffer (0). -/
theorem trend_flag_true_without_strict_rate :
    (runEngine [] 0).isOddIncreasing = true ∧
    ¬(rateOf (fun x => x % 2 == 1) (runState [] 0).buffer50 <
      rateOf (fun x => x % 2 == 1) (runState [] 0).buffer15) := by
  have hflag : (runEngine [] 0).isOddIncreasing =
      !(calculateTrend [0] [0] (fun x => x % 2 == 0)) := rfl
  have hct : calculateTrend [0] [0] (fun x => x % 2 == 0) = false := by
    unfold calculateTrend
    rw [if_neg]
    · exact decide_eq_false (lt_irrefl _)
    · norm_num
  constructor
  · rw [hflag, hct]
    rfl
  · rw [show (runState [] 0).buffer50 = [0] from rfl,
      show (runState [] 0).buffer15 = [0] from rfl]
    exact lt_irrefl _

/-! ## AutoBot stake progression (`handleTradeResult`, src/lib/signal-strategies.ts)

Only the stats and stake fields are modeled; the rolling 50-entry trade log,
`profitLossPercent` and the UI callback are bookkeeping the claims do not
touch. On a loss the source adds the (negative) `result.profit` to
`profitLoss` and, with martingale on and multiplier above 1, sets
`stake = min(Math.round(stake * mult * 100) / 100, Math.round(balance * 0.5 * 100) / 100)`. -/

structure BotConfig where
  initialStake : ℚ
  martingaleMultiplier : ℚ
  balance : ℚ
  useMartingale : Bool
deriving DecidableEq

structure BotState where
  totalRuns : ℕ
  wins : ℕ
  losses : ℕ
  consecutiveLosses : ℕ
  profitLoss : ℚ
  currentStake : ℚ
deriving DecidableEq

/-- JS `Math.round(q * 100) / 100`: round to cents. -/
def round2 (q : ℚ) : ℚ := (jround (q * 100) : ℚ) / 100

def handleTradeResult (cfg : BotConfig) (st : BotState) (isWin : Bool)
    (profit : ℚ) : BotState :=
  if isWin then
    ⟨st.totalRuns + 1, st.wins + 1, st.losses, 0, st.profitLoss + profit,
      round2 cfg.initialStake⟩
  else
    ⟨st.totalRuns + 1, st.wins, st.losses + 1, st.consecutiveLosses + 1,
      st.profitLoss + profit,
      if cfg.useMartingale = true ∧ 1 < cfg.martingaleMultiplier then
        min (round2 (st.currentStake * cfg.martingaleMultiplier)) (round2 (cfg.balance * 0.5))
      else st.currentStake⟩

lemma jround_eq (q : ℚ) (z : ℤ) (h1 : (z : ℚ) ≤ q + 1/2) (h2 : q + 1/2 < z + 1) :
    jround q = z := by
  unfold jround
  rw [Int.floor_eq_iff]
  exact ⟨h1, h2⟩

/-- C8 (amended): on a losing trade with martingale enabled and multiplier
above 1, the new stake is `min` of the cent-rounded `stake × multiplier` and
the cent-rounded `balance × 0.5`, and the consecutive-loss counter
increments; on a winning trade the stake resets to the cent-rounded base
stake and the counter resets to 0. At base stake 0.35 and multiplier 2.1 the
rounding is visible: with balance 100 the new stake is 0.74, not
0.35 × 2.1 = 0.735. -/
theorem martingale_stake_progression (cfg : BotConfig) (st : BotState) (p q : ℚ)
    (hm : cfg.useMartingale = true) (hmult : 1 < cfg.martingaleMultiplier) :
    (handleTradeResult cfg st false p).currentStake =
      min (round2 (st.currentStake * cfg.martingaleMultiplier))
        (round2 (cfg.balance * 0.5)) ∧
    (handleTradeResult cfg st false p).consecutiveLosses = st.consecutiveLosses + 1 ∧
    (handleTradeResult cfg st true q).currentStake = round2 cfg.initialStake ∧
    (handleTradeResult cfg st true q).consecutiveLosses = 0 := by
  refine ⟨?_, rfl, rfl, rfl⟩
  show (if cfg.useMartingale = true ∧ 1 < cfg.martingaleMultiplier then
      min (round2 (st.currentStake * cfg.martingaleMultiplier)) (round2 (cfg.balance * 0.5))
    else st.currentStake) = _
  rw [if_pos ⟨hm, hmult⟩]

/-- Witness for C8 at base stake 0.35, multiplier 2.1, balance 100. -/
theorem martingale_stake_progression_witness :
    (handleTradeResult ⟨0.35, 2.1, 100, true⟩ ⟨0, 0, 0, 0, 0, 0.35⟩ false (-1)).currentStake =
      min (round2 ((0.35 : ℚ) * 2.1)) (round2 ((100 : ℚ) * 0.5)) :=
  (martingale_stake_progression ⟨0.35, 2.1, 100, true⟩ ⟨0, 0, 0, 0, 0, 0.35⟩ (-1) 1
    rfl (by norm_num)).1

/-- C8 counterexample to the claim as stated: at stake 0.35, multiplier 2.1
and balance 100 the code yields a new stake of 0.74 (cent-rounded), not the
claimed `min(0.35 × 2.1, balance × 0.5) = 0.735`. -/
theorem martingale_stake_not_exact :
    (handleTradeResult ⟨0.35, 2.1, 100, true⟩ ⟨0, 0, 0, 0, 0, 0.35⟩ false (-1)).currentStake =
      0.74 ∧
    (handleTradeResult ⟨0.35, 2.1, 100, true⟩ ⟨0, 0, 0, 0, 0, 0.35⟩ false (-1)).currentStake ≠
      min ((0.35 : ℚ) * 2.1) ((100 : ℚ) * 0.5) := by
  have hj1 : jround ((0.35 : ℚ) * 2.1 * 100) = 74 := by
    apply jround_eq
    · norm_num
    · norm_num
  have hj2 : jround ((100 : ℚ) * 0.5 * 100) = 5000 := by
    apply jround_eq
    · norm_num
    · norm_num
  have hr1 : round2 ((0.35 : ℚ) * 2.1) = 0.74 := by
    unfold round2
    rw [hj1]
    norm_num
  have hr2 : round2 ((100 : ℚ) * 0.5) = 50 := by
    unfold round2
    rw [hj2]
    norm_num
  have hstake : (handleTradeResult ⟨0.35, 2.1, 100, true⟩
      ⟨0, 0, 0, 0, 0, 0.35⟩ false (-1)).currentStake =
      min (round2 ((0.35 : ℚ) * 2.1)) (round2 ((100 : ℚ) * 0.5)) := by
    show (if (true = true ∧ (1 : ℚ) < 2.1) then
        min (round2 ((0.35 : ℚ) * 2.1)) (round2 ((100 : ℚ) * 0.5))
      else (0.35 : ℚ)) = _
    rw [if_pos ⟨rfl, by norm_num⟩]
  rw [hstake, hr1, hr2]
  constructor
  · rw [min_eq_left]
    norm_num
  · rw [min_eq_left (by norm_num : (0.74 : ℚ) ≤ 50),
      min_eq_left (by norm_num : (0.35 : ℚ) * 2.1 ≤ 100 * 0.5)]
    norm_num

/-! ## Claim C10: at most one ExtremeCompression match, low zone first. -/

lemma ptypeOf_detectClustering {w : List ℕ} {p : PatternMatch}
    (h : detectClustering w = some p) : ptypeOf p.kind = .Clustering := by
  simp only [detectClustering] at h
  split at h
  · obtain rfl := Option.some_inj.mp h
    rfl
  · exact absurd h (by simp)

lemma ptypeOf_detectClusterRejection {w : List ℕ} {p : PatternMatch}
    (h : detectClusterRejection w = some p) : ptypeOf p.kind = .ClusterRejection := by
  simp only [detectClusterRejection] at h
  split at h
  · obtain rfl := Option.some_inj.mp h
    rfl
  · exact absurd h (by simp)

lemma ptypeOf_detectAlternatingCycles {w : List ℕ} {p : PatternMatch}
    (h : detectAlternatingCycles w = some p) : ptypeOf p.kind = .AlternatingCycle := by
  unfold detectAlternatingCycles at h
  split at h
  · split at h
    · obtain rfl := Option.some_inj.mp h
      rfl
    · exact absurd h (by simp)
  · exact absurd h (by simp)

lemma ptypeOf_detectEvenOddImbalance {w : List ℕ} {p : PatternMatch}
    (h : detectEvenOddImbalance w = some p) : ptypeOf p.kind = .EvenOddImbalance := by
  simp only [detectEvenOddImbalance] at h
  split at h
  · obtain rfl := Option.some_inj.mp h
    rfl
  · exact absurd h (by simp)

lemma ptypeOf_detectMicroRepetition {w : List ℕ} {p : PatternMatch}
    (h : detectMicroRepetition w = some p) : ptypeOf p.kind = .MicroRepetition := by
  unfold detectMicroRepetition at h
  split at h
  · split at h
    · obtain rfl := Option.some_inj.mp h
      rfl
    · exact absurd h (by simp)
  · exact absurd h (by simp)

lemma countP_filterMap_id_eq_zero (os : List (Option PatternMatch))
    (p : PatternMatch → Bool) (h : ∀ o ∈ os, ∀ x, o = some x → p x = false) :
    (os.filterMap id).countP p = 0 := by
  induction os with
  | nil => rfl
  | cons o os ih =>
    cases o with
    | none =>
      rw [List.filterMap_cons_none
        (show id (none : Option PatternMatch) = none from rfl)]
      exact ih (fun o ho x hx => h o (List.mem_cons_of_mem _ ho) x hx)
    | some x =>
      rw [List.filterMap_cons_some (show id (some x) = some x from rfl)]
      simp only [List.countP_cons]
      have hx : p x = false := h (some x) (List.mem_cons_self _ _) x rfl
      rw [ih (fun o ho y hy => h o (List.mem_cons_of_mem _ ho) y hy)]
      simp [hx]

lemma detectExtremeCompression_low {w : List ℕ}
    (h3 : 3 ≤ (lastN 10 w).countP (fun d => decide (d ≤ 1))) :
    detectExtremeCompression w =
      some ⟨.extremeCompression .low ((lastN 10 w).countP (fun d => decide (d ≤ 1))),
        ((lastN 10 w).countP (fun d => decide (d ≤ 1)) : ℚ) / 5 * 100, 80⟩ := by
  unfold detectExtremeCompression
  rw [if_pos h3]

/-- The list of detector outputs that `analyze` collects, in source order. -/
def detectorOutputs (w : List ℕ) : List (Option PatternMatch) :=
  [detectClustering w, detectClusterRejection w, detectAlternatingCycles w,
    detectEvenOddImbalance w, detectExtremeCompression w, detectMicroRepetition w]

lemma analyze_eq_sort (w : List ℕ) (h10 : 10 ≤ w.length) :
    analyze w = List.insertionSort (fun p q => q.confidence ≤ p.confidence)
      ((detectorOutputs w).filterMap id) := by
  unfold analyze detectorOutputs
  rw [if_neg (not_lt.mpr h10)]

/-- C10: each `analyze` call reports at most one ExtremeCompression match,
and when the last 10 digits hold at least 3 digits in {0,1} and also at
least 3 digits in {8,9}, the reported ExtremeCompression match exists and
every such match carries zone low (the high-zone branch is unreachable). -/
theorem analyze_compression_unique (w : List ℕ) :
    (analyze w).countP (fun p => ptypeOf p.kind == .ExtremeCompression) ≤ 1 ∧
    (10 ≤ w.length →
      3 ≤ (lastN 10 w).countP (fun d => decide (d ≤ 1)) →
      3 ≤ (lastN 10 w).countP (fun d => decide (8 ≤ d)) →
      (∃ p ∈ analyze w, ∃ n, p.kind = .extremeCompression Zone.low n) ∧
      (∀ p ∈ analyze w, ∀ z n, p.kind = .extremeCompression z n → z = Zone.low)) := by
  constructor
  · by_cases h10 : w.length < 10
    · unfold analyze
      rw [if_pos h10]
      simp
    · rw [analyze_eq_sort w (not_lt.mp h10)]
      rw [(List.perm_insertionSort (fun p q => q.confidence ≤ p.confidence)
        ((detectorOutputs w).filterMap id)).countP_eq]
      have hsplit : detectorOutputs w =
          [detectClustering w, detectClusterRejection w, detectAlternatingCycles w,
            detectEvenOddImbalance w] ++ [detectExtremeCompression w] ++
            [detectMicroRepetition w] := rfl
      rw [hsplit, List.filterMap_append, List.filterMap_append,
        List.countP_append, List.countP_append]
      have hz1 : (List.filterMap id
          [detectClustering w, detectClusterRejection w, detectAlternatingCycles w,
            detectEvenOddImbalance w]).countP
          (fun p => ptypeOf p.kind == .ExtremeCompression) = 0 := by
        apply countP_filterMap_id_eq_zero
        intro o ho x hx
        subst hx
        rcases List.mem_cons.mp ho with h | ho
        · rw [ptypeOf_detectClustering h.symm]
          rfl
        rcases List.mem_cons.mp ho with h | ho
        · rw [ptypeOf_detectClusterRejection h.symm]
          rfl
        rcases List.mem_cons.mp ho with h | ho
        · rw [ptypeOf_detectAlternatingCycles h.symm]
          rfl
        rcases List.mem_cons.mp ho with h | ho
        · rw [ptypeOf_detectEvenOddImbalance h.symm]
          rfl
        · exact absurd ho (List.not_mem_nil _)
      have hz3 : (List.filterMap id [detectMicroRepetition w]).countP
          (fun p => ptypeOf p.kind == .ExtremeCompression) = 0 := by
        apply countP_filterMap_id_eq_zero
        intro o ho x hx
        subst hx
        rcases List.mem_cons.mp ho with h | ho
        · rw [ptypeOf_detectMicroRepetition h.symm]
          rfl
        · exact absurd ho (List.not_mem_nil _)
      have hz2 : (List.filterMap id [detectExtremeCompression w]).countP
          (fun p => ptypeOf p.kind == .ExtremeCompression) ≤ 1 := by
        cases hec : detectExtremeCompression w with
        | none => simp [List.filterMap]
        | some x =>
          simp only [List.filterMap_cons, List.filterMap_nil, id, List.countP_cons,
            List.countP_nil]
          cases hpt : (ptypeOf x.kind == PatternType.ExtremeCompression) <;> simp [hpt]
      omega
  · intro h10 hlow hhigh
    have hec := detectExtremeCompression_low hlow
    have hmem : (⟨.extremeCompression .low
        ((lastN 10 w).countP (fun d => decide (d ≤ 1))),
        ((lastN 10 w).countP (fun d => decide (d ≤ 1)) : ℚ) / 5 * 100, 80⟩ : PatternMatch) ∈
        analyze w := by
      rw [analyze_eq_sort w h10, List.mem_insertionSort]
      apply List.mem_filterMap.mpr
      exact ⟨detectExtremeCompression w, by simp [detectorOutputs], by simpa using hec⟩
    constructor
    · exact ⟨_, hmem, _, rfl⟩
    · intro p hp z n hkind
      rw [analyze_eq_sort w h10, List.mem_insertionSort] at hp
      obtain ⟨o, ho, hid⟩ := List.mem_filterMap.mp hp
      simp only [id] at hid
      subst hid
      unfold detectorOutputs at ho
      rcases List.mem_cons.mp ho with h | ho
      · have := ptypeOf_detectClustering h.symm
        rw [hkind] at this
        exact absurd this (by simp [ptypeOf])
      rcases List.mem_cons.mp ho with h | ho
      · have := ptypeOf_detectClusterRejection h.symm
        rw [hkind] at this
        exact absurd this (by simp [ptypeOf])
      rcases List.mem_cons.mp ho with h | ho
      · have := ptypeOf_detectAlternatingCycles h.symm
        rw [hkind] at this
        exact absurd this (by simp [ptypeOf])
      rcases List.mem_cons.mp ho with h | ho
      · have := ptypeOf_detectEvenOddImbalance h.symm
        rw [hkind] at this
        exact absurd this (by simp [ptypeOf])
      rcases List.mem_cons.mp ho with h | ho
      · rw [← h] at hec
        obtain hpeq := Option.some_inj.mp hec.symm
        rw [← hpeq] at hkind
        simp only at hkind
        have hz := (PatternKind.extremeCompression.injEq _ _ _ _).mp hkind.symm
        exact hz.1
      rcases List.mem_cons.mp ho with h | ho
      · have := ptypeOf_detectMicroRepetition h.symm
        rw [hkind] at this
        exact absurd this (by simp [ptypeOf])
      · exact absurd ho (List.not_mem_nil _)

/-- Witness for C10 at a window with 3 low digits and 3 high digits among
the last 10. -/
theorem analyze_compression_unique_witness :
    (10 ≤ ([0, 0, 0, 8, 8, 8, 5, 5, 5, 5] : List ℕ).length) ∧
    3 ≤ (lastN 10 [0, 0, 0, 8, 8, 8, 5, 5, 5, 5]).countP (fun d => decide (d ≤ 1)) ∧
    3 ≤ (lastN 10 [0, 0, 0, 8, 8, 8, 5, 5, 5, 5]).countP (fun d => decide (8 ≤ d)) ∧
    ((∃ p ∈ analyze [0, 0, 0, 8, 8, 8, 5, 5, 5, 5],
        ∃ n, p.kind = .extremeCompression Zone.low n) ∧
      (∀ p ∈ analyze [0, 0, 0, 8, 8, 8, 5, 5, 5, 5],
        ∀ z n, p.kind = .extremeCompression z n → z = Zone.low)) :=
  ⟨by decide, by decide, by decide,
    (analyze_compression_unique [0, 0, 0, 8, 8, 8, 5, 5, 5, 5]).2
      (by decide) (by decide) (by decide)⟩

/-! ## Smart intelligence engine scoring (`calculateScore`)

`Math.sqrt` and `Math.log2` make the score real-valued; the computation is
embedded over `ℝ`, decomposed into one named definition per intermediate
value of the source method. `getFrequencies` is `digitCountsOf`. -/

/-- `stability = max(0, 100 - (sqrt(variance / 10) / idealFreq) * 100)` with
`variance = Σ (count - idealFreq)²` and `idealFreq = length / 10`. -/
noncomputable def stabilityOf (w : List ℕ) : ℝ :=
  max 0 (100 - Real.sqrt ((((digitCountsOf w).map
      (fun c : ℕ => ((c : ℝ) - (w.length : ℝ) / 10) ^ 2)).sum) / 10) /
    ((w.length : ℝ) / 10) * 100)

/-- The number of indices whose digit equals its immediate predecessor. -/
def clustersOf (w : List ℕ) : ℕ := (w.zip w.tail).countP (fun p => p.1 == p.2)

/-- `patternStrength = min(100, (clusters / (length / 5)) * 100)`. -/
noncomputable def patternStrengthOf (w : List ℕ) : ℝ :=
  min 100 ((clustersOf w : ℝ) / ((w.length : ℝ) / 5) * 100)

/-- Shannon entropy of the digit distribution, skipping zero counts. -/
noncomputable def entropyOf (w : List ℕ) : ℝ :=
  ((digitCountsOf w).map (fun c : ℕ =>
    if 0 < c then
      -(((c : ℝ) / (w.length : ℝ)) * Real.logb 2 ((c : ℝ) / (w.length : ℝ)))
    else 0)).sum

/-- `noiseRatio = (entropy / 3.32) * 100`. -/
noncomputable def noiseRatioOf (w : List ℕ) : ℝ := entropyOf w / 3.32 * 100

/-- `score = stability * 0.4 + patternStrength * 0.4 + (100 - noiseRatio) * 0.2`,
before rounding. -/
noncomputable def rawScoreOf (w : List ℕ) : ℝ :=
  stabilityOf w * 0.4 + patternStrengthOf w * 0.4 + (100 - noiseRatioOf w) * 0.2

/-- JS `Math.round` on a real. -/
noncomputable def jroundR (x : ℝ) : ℤ := ⌊x + 1/2⌋

/-- `calculateScore`: `none` below 20 samples, otherwise the `MarketScore`
with rounded fields and the state read off the unrounded score. -/
noncomputable def calculateScore (symbol : String) (w : List ℕ) (lastDigit : ℕ) :
    Option MarketScore :=
  if w.length < 20 then none
  else some ⟨symbol, jroundR (rawScoreOf w),
    (if 70 < rawScoreOf w then MarketState.Structured
      else if 40 < rawScoreOf w then MarketState.Transitional else MarketState.Random),
    jroundR (stabilityOf w), jroundR (patternStrengthOf w), jroundR (noiseRatioOf w),
    lastDigit⟩

lemma entropy_term_nonneg (c len : ℕ) (hc : c ≤ len) :
    0 ≤ (if 0 < c then
      -(((c : ℝ) / (len : ℝ)) * Real.logb 2 ((c : ℝ) / (len : ℝ))) else 0) := by
  by_cases h : 0 < c
  · rw [if_pos h]
    have hlen : 0 < len := lt_of_lt_of_le h hc
    have hp0 : (0 : ℝ) < (c : ℝ) / (len : ℝ) :=
      div_pos (Nat.cast_pos.mpr h) (Nat.cast_pos.mpr hlen)
    have hp1 : (c : ℝ) / (len : ℝ) ≤ 1 := by
      rw [div_le_one (Nat.cast_pos.mpr hlen)]
      exact_mod_cast hc
    have hlog : Real.logb 2 ((c : ℝ) / (len : ℝ)) ≤ 0 :=
      Real.logb_nonpos (by norm_num) hp0.le hp1
    have := mul_nonneg hp0.le (neg_nonneg.mpr hlog)
    linarith [this]
  · rw [if_neg h]

lemma entropy_term_le (c len : ℕ) (hlen : 0 < len) :
    (if 0 < c then
      -(((c : ℝ) / (len : ℝ)) * Real.logb 2 ((c : ℝ) / (len : ℝ))) else 0) ≤
      ((c : ℝ) / (len : ℝ)) * Real.logb 2 10 +
        (1/10 - (c : ℝ) / (len : ℝ)) / Real.log 2 := by
  have hlog2 : (0 : ℝ) < Real.log 2 := Real.log_pos (by norm_num)
  by_cases hc : 0 < c
  · rw [if_pos hc]
    set p : ℝ := (c : ℝ) / (len : ℝ) with hp
    have hppos : 0 < p := div_pos (Nat.cast_pos.mpr hc) (Nat.cast_pos.mpr hlen)
    have h1 : Real.log (1 / (10 * p)) ≤ 1 / (10 * p) - 1 :=
      Real.log_le_sub_one_of_pos (by positivity)
    have h2 : Real.log (1 / p) = Real.log 10 + Real.log (1 / (10 * p)) := by
      rw [← Real.log_mul (by norm_num) (by positivity)]
      congr 1
      field_simp
    have h3 : -(p * Real.logb 2 p) = p * Real.log (1 / p) / Real.log 2 := by
      rw [Real.logb, Real.log_div one_ne_zero hppos.ne', Real.log_one]
      field_simp
    have h4 : p * Real.log (1 / (10 * p)) ≤ 1/10 - p := by
      have := mul_le_mul_of_nonneg_left h1 hppos.le
      have heq : p * (1 / (10 * p) - 1) = 1/10 - p := by
        field_simp
        ring
      linarith [heq ▸ this]
    have h5 : Real.logb 2 10 = Real.log 10 / Real.log 2 := rfl
    rw [h3, h2, h5]
    rw [mul_add, add_div]
    have h6 : p * Real.log (1 / (10 * p)) / Real.log 2 ≤ (1/10 - p) / Real.log 2 :=
      (div_le_div_iff_of_pos_right hlog2).mpr h4
    have h7 : p * Real.log 10 / Real.log 2 = p * (Real.log 10 / Real.log 2) := by ring
    linarith [h6, h7 ▸ le_refl (p * Real.log 10 / Real.log 2)]
  · rw [if_neg hc]
    have hc0 : c = 0 := by omega
    subst hc0
    simp only [Nat.cast_zero, zero_div, zero_mul, zero_add]
    positivity

lemma sum_entropy_le (l : List ℕ) (len : ℕ) (hlen : 0 < len) :
    (l.map (fun c : ℕ => if 0 < c then
      -(((c : ℝ) / (len : ℝ)) * Real.logb 2 ((c : ℝ) / (len : ℝ))) else 0)).sum ≤
      ((l.sum : ℝ) / (len : ℝ)) * Real.logb 2 10 +
        ((l.length : ℝ) / 10 - (l.sum : ℝ) / (len : ℝ)) / Real.log 2 := by
  induction l with
  | nil => simp
  | cons c l ih =>
    have hterm := entropy_term_le c len hlen
    simp only [List.map_cons, List.sum_cons, List.length_cons]
    have hr : (((c : ℕ) + l.sum : ℕ) : ℝ) / (len : ℝ) * Real.logb 2 10 +
        (((l.length + 1 : ℕ) : ℝ) / 10 - (((c : ℕ) + l.sum : ℕ) : ℝ) / (len : ℝ)) /
          Real.log 2 =
        (((c : ℝ) / (len : ℝ)) * Real.logb 2 10 +
          (1/10 - (c : ℝ) / (len : ℝ)) / Real.log 2) +
        (((l.sum : ℝ) / (len : ℝ)) * Real.logb 2 10 +
          (((l.length : ℕ) : ℝ) / 10 - ((l.sum : ℕ) : ℝ) / (len : ℝ)) / Real.log 2) := by
      push_cast
      ring
    rw [hr]
    exact add_le_add hterm ih

lemma logb_two_ten_le : Real.logb 2 10 ≤ 3.33 := by
  have hlog2 : (0 : ℝ) < Real.log 2 := Real.log_pos (by norm_num)
  have hnat : (10 : ℕ) ^ (100 : ℕ) ≤ 2 ^ (333 : ℕ) := by norm_num
  have hreal : (10 : ℝ) ^ (100 : ℕ) ≤ (2 : ℝ) ^ (333 : ℕ) := by exact_mod_cast hnat
  have hlogle : Real.log ((10 : ℝ) ^ (100 : ℕ)) ≤ Real.log ((2 : ℝ) ^ (333 : ℕ)) :=
    (Real.log_le_log_iff (by positivity) (by positivity)).mpr hreal
  rw [Real.log_pow, Real.log_pow] at hlogle
  rw [Real.logb, div_le_iff₀ hlog2]
  push_cast at hlogle
  linarith

lemma entropyOf_nonneg (w : List ℕ) : 0 ≤ entropyOf w := by
  apply List.sum_nonneg
  intro x hx
  obtain ⟨c, hc, hcx⟩ := List.mem_map.mp hx
  obtain ⟨dgt, _, hdc⟩ := List.mem_map.mp hc
  have hcle : c ≤ w.length := by
    rw [← hdc]
    exact List.count_le_length dgt w
  rw [← hcx]
  exact entropy_term_nonneg c w.length hcle

lemma entropyOf_le (w : List ℕ) (hlen : 0 < w.length) (h9 : ∀ x ∈ w, x < 10) :
    entropyOf w ≤ Real.logb 2 10 := by
  have hmain := sum_entropy_le (digitCountsOf w) w.length hlen
  rw [sum_digitCountsOf w h9] at hmain
  have hlength : (digitCountsOf w).length = 10 := by simp [digitCountsOf]
  rw [hlength] at hmain
  have hlenR : ((w.length : ℕ) : ℝ) ≠ 0 := by
    have : w.length ≠ 0 := by omega
    exact_mod_cast this
  rw [div_self hlenR] at hmain
  unfold entropyOf
  calc ((digitCountsOf w).map (fun c : ℕ =>
        if 0 < c then
          -(((c : ℝ) / (w.length : ℝ)) * Real.logb 2 ((c : ℝ) / (w.length : ℝ)))
        else 0)).sum ≤
      1 * Real.logb 2 10 + (((10 : ℕ) : ℝ) / 10 - 1) / Real.log 2 := hmain
    _ = Real.logb 2 10 := by norm_num

/-- C5: for every window of at least 20 digits (each 0-9), `calculateScore`
emits a `MarketScore` whose rounded `score` lies in [0, 100] and whose
`state` is read off the unrounded score by the 70/40 thresholds
(score > 70 Structured, score > 40 Transitional, else Random); for windows
of fewer than 20 digits no score is emitted. -/
theorem marketScore_score_in_range (symbol : String) (w : List ℕ) (d : ℕ) :
    (20 ≤ w.length → (∀ x ∈ w, x < 10) →
      ∃ ms, calculateScore symbol w d = some ms ∧
        0 ≤ ms.score ∧ ms.score ≤ 100 ∧
        ms.state = (if 70 < rawScoreOf w then MarketState.Structured
          else if 40 < rawScoreOf w then MarketState.Transitional
          else MarketState.Random)) ∧
    (w.length < 20 → calculateScore symbol w d = none) := by
  constructor
  · intro h20 h9
    have hlen0 : 0 < w.length := by omega
    have hlenR : (0 : ℝ) < ((w.length : ℕ) : ℝ) := by exact_mod_cast hlen0
    have hs0 : (0 : ℝ) ≤ stabilityOf w := le_max_left _ _
    have hs1 : stabilityOf w ≤ 100 := by
      apply max_le (by norm_num)
      have hnn : (0 : ℝ) ≤ Real.sqrt ((((digitCountsOf w).map
          (fun c : ℕ => ((c : ℝ) - (w.length : ℝ) / 10) ^ 2)).sum) / 10) /
          ((w.length : ℝ) / 10) * 100 := by positivity
      linarith
    have hp0 : (0 : ℝ) ≤ patternStrengthOf w := by
      apply le_min (by norm_num)
      positivity
    have hp1 : patternStrengthOf w ≤ 100 := min_le_left _ _
    have he0 : 0 ≤ entropyOf w := entropyOf_nonneg w
    have heU : entropyOf w ≤ Real.logb 2 10 := entropyOf_le w hlen0 h9
    have h333 : Real.logb 2 10 ≤ 3.33 := logb_two_ten_le
    have hn0 : 0 ≤ noiseRatioOf w := by
      unfold noiseRatioOf
      positivity
    have hnU : noiseRatioOf w ≤ 3.33 / 3.32 * 100 := by
      unfold noiseRatioOf
      have h1 : entropyOf w ≤ 3.33 := le_trans heU h333
      have h2 : entropyOf w / 3.32 ≤ 3.33 / 3.32 :=
        (div_le_div_iff_of_pos_right (by norm_num : (0 : ℝ) < 3.32)).mpr h1
      exact mul_le_mul_of_nonneg_right h2 (by norm_num)
    have hraw1 : rawScoreOf w ≤ 100 := by
      unfold rawScoreOf
      linarith
    have hraw0 : -(1 : ℝ) / 2 < rawScoreOf w := by
      unfold rawScoreOf
      linarith
    refine ⟨⟨symbol, jroundR (rawScoreOf w),
      (if 70 < rawScoreOf w then MarketState.Structured
        else if 40 < rawScoreOf w then MarketState.Transitional
        else MarketState.Random),
      jroundR (stabilityOf w), jroundR (patternStrengthOf w), jroundR (noiseRatioOf w),
      d⟩, ?_, ?_, ?_, rfl⟩
    · unfold calculateScore
      rw [if_neg (not_lt.mpr h20)]
    · show (0 : ℤ) ≤ jroundR (rawScoreOf w)
      unfold jroundR
      apply Int.le_floor.mpr
      push_cast
      linarith
    · show jroundR (rawScoreOf w) ≤ 100
      unfold jroundR
      have hlt : ⌊rawScoreOf w + 1/2⌋ < 101 := by
        apply Int.floor_lt.mpr
        push_cast
        linarith
      omega
  · intro h20
    unfold calculateScore
    rw [if_pos h20]

/-- Witness for C5 at a 20-element window and a 3-element window. -/
theorem marketScore_score_in_range_witness :
    (20 ≤ ([0, 1, 2, 3, 4, 5, 6, 7, 8, 9, 0, 1, 2, 3, 4, 5, 6, 7, 8, 9] : List ℕ).length) ∧
    (∀ x ∈ ([0, 1, 2, 3, 4, 5, 6, 7, 8, 9, 0, 1, 2, 3, 4, 5, 6, 7, 8, 9] : List ℕ),
      x < 10) ∧
    (∃ ms, calculateScore "R_10" [0, 1, 2, 3, 4, 5, 6, 7, 8, 9, 0, 1, 2, 3, 4, 5, 6, 7, 8, 9] 9 =
        some ms ∧
      0 ≤ ms.score ∧ ms.score ≤ 100 ∧
      ms.state = (if 70 < rawScoreOf [0, 1, 2, 3, 4, 5, 6, 7, 8, 9, 0, 1, 2, 3, 4, 5, 6, 7, 8, 9]
          then MarketState.Structured
        else if 40 < rawScoreOf [0, 1, 2, 3, 4, 5, 6, 7, 8, 9, 0, 1, 2, 3, 4, 5, 6, 7, 8, 9]
          then MarketState.Transitional
        else MarketState.Random)) ∧
    (([1, 2, 3] : List ℕ).length < 20) ∧
    calculateScore "R_10" [1, 2, 3] 3 = none :=
  ⟨by decide, by decide,
    (marketScore_score_in_range "R_10"
      [0, 1, 2, 3, 4, 5, 6, 7, 8, 9, 0, 1, 2, 3, 4, 5, 6, 7, 8, 9] 9).1
      (by decide) (by decide),
    by decide,
    (marketScore_score_in_range "R_10" [1, 2, 3] 3).2 (by decide)⟩

end DTool
